import Mathlib

/-!
Verification development for the honeypot service (src/main.py, src/models.py).

The embedding is a shallow one over `List Char` texts:

* `extract_intelligence` models the Python function of the same name
  (src/main.py lines 81-91).  The three regular expressions are modelled by
  executable scanners that follow the leftmost, non-overlapping, greedy
  semantics of `re.findall` over their ASCII character classes:
  - `upiScan`    models `re.findall(r"[a-zA-Z0-9.\-_]+@[a-zA-Z]+", text)`;
  - `runsBy`     is a maximal-run splitter used to model
                 `re.findall(r"\b\d{9,18}\b", text)`: a match of that pattern
                 is exactly a maximal run of word characters that consists
                 only of digits and has length 9..18 (the `\b` anchors force
                 the characters adjacent to the match to be non-word);
  - `linkScan`   models `re.findall(r"https?://\S+", text)`.
  `list(set(...))` is modelled by `List.dedup` (only membership and
  emptiness of the result matter to the properties below).

* `confidenceScore` models the scoring block (src/main.py lines 201-210)
  over exact rationals.

* `honeypot_endpoint` models the request handler (src/main.py lines 97-293)
  with the two LLM calls abstracted as `Except Unit (List Char)` oracles
  (`Except.error` models a raised exception, `Except.ok c` a response with
  content `c`); the database session is modelled by an explicit `Db` value.
  The `history` field of the request only appears inside the generated
  prompt text in the source and is therefore not modelled.
-/

/-- ASCII letter, as matched by the Python regex class `[a-zA-Z]`. -/
def alphaChar (c : Char) : Bool :=
  ('a' ≤ c && c ≤ 'z') || ('A' ≤ c && c ≤ 'Z')

/-- ASCII digit, as matched by `\d` on ASCII text. -/
def digitChar (c : Char) : Bool :=
  '0' ≤ c && c ≤ '9'

/-- ASCII word character, as used by the `\b` anchors (`\w` = `[a-zA-Z0-9_]`). -/
def isWordChar (c : Char) : Bool :=
  alphaChar c || digitChar c || c = '_'

/-- Character of the regex class `[a-zA-Z0-9.\-_]` (left side of the handle pattern). -/
def upiChar (c : Char) : Bool :=
  alphaChar c || digitChar c || c = '.' || c = '-' || c = '_'

/-- ASCII whitespace as matched by Python's `\s`; `\S` is its negation. -/
def spaceChar (c : Char) : Bool :=
  c = ' ' || c = '\t' || c = '\n' || c = '\r' || c = '\x0b' || c = '\x0c'

/-- Negation of `spaceChar`: what the regex `\S` matches (ASCII view). -/
def nonSpaceChar (c : Char) : Bool :=
  !spaceChar c

/-- The characters of a string literal, used to write concrete texts. -/
def chars (s : String) : List Char :=
  s.data

/-- Maximal runs of `p`-characters of a text, in order.  `runsBy p l`
returns every maximal non-empty segment of `l` whose characters all
satisfy `p`.  The `fuel` variant is structurally recursive so that it
evaluates inside the kernel; `runsBy` instantiates the fuel with the
length of the text, which is always sufficient. -/
def runsByF (p : Char → Bool) : Nat → List Char → List (List Char)
  | 0, _ => []
  | _, [] => []
  | fuel + 1, c :: cs =>
    if p c then
      ((c :: cs).takeWhile p) :: runsByF p fuel ((c :: cs).dropWhile p)
    else
      runsByF p fuel cs

/-- Maximal runs of `p`-characters of a text. -/
def runsBy (p : Char → Bool) (l : List Char) : List (List Char) :=
  runsByF p l.length l

/-- One step of the scan for `[a-zA-Z0-9.\-_]+@[a-zA-Z]+` and the scan
itself: at a position starting a (maximal) run of `upiChar`s, the greedy
engine matches the whole run, requires a literal `@` right after it and
then a non-empty (maximal) run of letters; otherwise it moves on.  On
failure the scan may skip the whole run: any suffix of the run sees the
same `@`-position and the same letters, so no match can start inside a
skipped run. -/
def upiScanF : Nat → List Char → List (List Char)
  | 0, _ => []
  | _, [] => []
  | fuel + 1, c :: cs =>
    if upiChar c then
      match (c :: cs).dropWhile upiChar with
      | [] => []
      | d :: rest2 =>
        if d = '@' then
          match rest2.takeWhile alphaChar with
          | [] => upiScanF fuel rest2
          | a :: al =>
            ((c :: cs).takeWhile upiChar ++ '@' :: a :: al) ::
              upiScanF fuel (rest2.dropWhile alphaChar)
        else
          upiScanF fuel rest2
    else
      upiScanF fuel cs

/-- All matches of `[a-zA-Z0-9.\-_]+@[a-zA-Z]+` in the text, in order. -/
def upiScan (l : List Char) : List (List Char) :=
  upiScanF l.length l

/-- Prefix test: `leadsWith pat l` holds when `pat` is an initial segment of `l`. -/
def leadsWith : List Char → List Char → Bool
  | [], _ => true
  | _ :: _, [] => false
  | a :: as, b :: bs => a == b && leadsWith as bs

/-- The literal `http://`. -/
def httpPat : List Char :=
  ['h', 't', 't', 'p', ':', '/', '/']

/-- The literal `https://`. -/
def httpsPat : List Char :=
  ['h', 't', 't', 'p', 's', ':', '/', '/']

/-- Attempt to match `https?://\S+` at the head of the text.  On success
returns the match (scheme plus the maximal non-empty run of non-space
characters) and the remainder of the text after the match. -/
def linkHead (l : List Char) : Option (List Char × List Char) :=
  if leadsWith httpsPat l then
    let rest := l.drop 8
    match rest.takeWhile nonSpaceChar with
    | [] => none
    | a :: w => some (httpsPat ++ a :: w, rest.dropWhile nonSpaceChar)
  else if leadsWith httpPat l then
    let rest := l.drop 7
    match rest.takeWhile nonSpaceChar with
    | [] => none
    | a :: w => some (httpPat ++ a :: w, rest.dropWhile nonSpaceChar)
  else
    none

/-- All matches of `https?://\S+` in the text, in order. -/
def linkScanF : Nat → List Char → List (List Char)
  | 0, _ => []
  | _, [] => []
  | fuel + 1, c :: cs =>
    match linkHead (c :: cs) with
    | some (m, rest) => m :: linkScanF fuel rest
    | none => linkScanF fuel cs

/-- All matches of `https?://\S+` in the text, in order. -/
def linkScan (l : List Char) : List (List Char) :=
  linkScanF l.length l

/-- Occurrence test: `containsSeq pat text` holds when `pat` occurs as a
contiguous subsequence of `text`. -/
def containsSeq (pat text : List Char) : Bool :=
  (List.range (text.length + 1)).any fun i => leadsWith pat (text.drop i)

/-- The result record of `extract_intelligence` (src/main.py lines 87-91). -/
structure ExtractedIndicators where
  upi_ids : List (List Char)
  bank_accounts : List (List Char)
  phishing_links : List (List Char)
deriving DecidableEq

/-- Model of `extract_intelligence` (src/main.py lines 81-91). -/
def extract_intelligence (text : List Char) : ExtractedIndicators :=
  ⟨(upiScan text).dedup,
   ((runsBy isWordChar text).filter fun r =>
     r.all digitChar && decide (9 ≤ r.length) && decide (r.length ≤ 18)).dedup,
   (linkScan text).dedup⟩

/-- Model of the confidence scoring block (src/main.py lines 201-210), over
exact rationals: base 0.4, plus 0.3 for `scam_detected`, plus 0.2 for a
non-empty `upi_ids`, plus 0.1 for a non-empty `phishing_links`, then
`min`-clamped at 0.95.  The `bank_accounts` field is not consulted. -/
def confidenceScore (scam : Bool) (e : ExtractedIndicators) : ℚ :=
  let s1 : ℚ := 4 / 10
  let s2 := if scam then s1 + 3 / 10 else s1
  let s3 := if e.upi_ids = [] then s2 else s2 + 2 / 10
  let s4 := if e.phishing_links = [] then s3 else s3 + 1 / 10
  min s4 (95 / 100)

/-- A row of the `messages` table (src/models.py lines 18-32);
`id` and `timestamp` are generated by the store and not modelled. -/
structure MessageRecord where
  conversation_id : List Char
  sender : List Char
  message_text : List Char
  scam_detected : Bool
  confidence : ℚ
deriving DecidableEq

/-- A row of the `intelligence` table (src/models.py lines 35-44). -/
structure IntelRecord where
  conversation_id : List Char
  intel_type : List Char
  value : List Char
deriving DecidableEq

/-- The database state visible to the endpoint: the set of known
conversation identifiers and the rows of the two tables written to. -/
structure Db where
  conversations : List (List Char)
  messages : List MessageRecord
  intelligence : List IntelRecord
deriving DecidableEq

/-- An empty store. -/
def emptyDb : Db :=
  ⟨[], [], []⟩

/-- Whether a stored row carries exactly the given
(conversation, type, value) triple. -/
def intelTriple (cid ty v : List Char) (r : IntelRecord) : Bool :=
  decide (r.conversation_id = cid ∧ r.intel_type = ty ∧ r.value = v)

/-- Model of one guarded insert (src/main.py lines 240-251 and the two
analogous blocks): query for an existing row with the same triple and
insert only when none is found. -/
def upsertIntelligence (st : List IntelRecord) (cid ty v : List Char) : List IntelRecord :=
  if st.any (intelTriple cid ty v) then st else st ++ [⟨cid, ty, v⟩]

/-- Number of stored rows carrying a given triple. -/
def intelCount (st : List IntelRecord) (cid ty v : List Char) : Nat :=
  (st.filter (intelTriple cid ty v)).length

/-- The dedup invariant of the intelligence store: at most one row per
(conversation, type, value) triple. -/
def intelDedupInv (st : List IntelRecord) : Prop :=
  ∀ cid ty v, intelCount st cid ty v ≤ 1

/-- The `intel_type` tag used for payment handles. -/
def upiTag : List Char :=
  chars "upi"

/-- The `intel_type` tag used for account numbers. -/
def bankTag : List Char :=
  chars "bank"

/-- The `intel_type` tag used for links. -/
def linkTag : List Char :=
  chars "link"

/-- Model of the Store Intelligence section (src/main.py lines 238-281):
guarded inserts for each extracted value, category by category. -/
def storeIntelligence (st : List IntelRecord) (cid : List Char)
    (e : ExtractedIndicators) : List IntelRecord :=
  let st1 := e.upi_ids.foldl (fun s v => upsertIntelligence s cid upiTag v) st
  let st2 := e.bank_accounts.foldl (fun s v => upsertIntelligence s cid bankTag v) st1
  e.phishing_links.foldl (fun s v => upsertIntelligence s cid linkTag v) st2

/-- Model of the Ensure Conversation Exists section (src/main.py
lines 113-120). -/
def conversationsAfter (convs : List (List Char)) (cid : List Char) : List (List Char) :=
  if cid ∈ convs then convs else convs ++ [cid]

/-- Python `str.strip()` on ASCII text: remove leading and trailing
whitespace. -/
def pyStrip (l : List Char) : List Char :=
  ((l.dropWhile spaceChar).reverse.dropWhile spaceChar).reverse

/-- Python `str.upper()` on ASCII text. -/
def pyUpper (l : List Char) : List Char :=
  l.map Char.toUpper

/-- Model of the Scam Detection section (src/main.py lines 141-153): a
raised exception yields `False`; otherwise the reply content is stripped,
upper-cased and compared with the literal `YES`, so malformed content
also yields `False`. -/
def scamFromClassifier : Except Unit (List Char) → Bool
  | Except.error _ => false
  | Except.ok content => pyUpper (pyStrip content) == chars "YES"

/-- Model of the Agent Response section (src/main.py lines 158-191): the
reply starts empty; only when the classifier flagged a scam and
`turn_count < 3` is the generator consulted, a raised exception yielding
the empty reply again. -/
def agentReplyOf (scam : Bool) (tc : Int) (gen : Except Unit (List Char)) : List Char :=
  if scam && decide (tc < 3) then
    match gen with
    | Except.ok content => pyStrip content
    | Except.error _ => []
  else
    []

/-- Model of the Store Scammer Message / Store Agent Message sections
(src/main.py lines 215-233): the scammer row is always appended; the
agent row only when the reply is non-empty (Python string truthiness). -/
def messagesAfter (msgs : List MessageRecord) (cid msg reply : List Char)
    (scam : Bool) (conf : ℚ) : List MessageRecord :=
  let m1 := msgs ++ [⟨cid, chars "scammer", msg, scam, conf⟩]
  if reply = [] then m1 else m1 ++ [⟨cid, chars "agent", reply, true, conf⟩]

/-- The request body (src/main.py lines 71-75); `history` only feeds the
generated prompt text and is not modelled. -/
structure HoneypotRequest where
  conversation_id : List Char
  message : List Char
  turn_count : Int
deriving DecidableEq

/-- What a handled request produces: the JSON response fields
(src/main.py lines 288-293), whether the decoy generator was invoked,
and the database state after the commit. -/
structure HoneypotResult where
  scam_detected : Bool
  agent_reply : List Char
  extracted_intelligence : ExtractedIndicators
  confidence_score : ℚ
  generatorCalled : Bool
  db : Db
deriving DecidableEq

/-- Model of the request handler (src/main.py lines 97-293) after the
API-key check, with the two LLM calls abstracted as oracles.  Extraction
runs on the scammer message, a single space and the agent reply
concatenated (src/main.py line 196). -/
def honeypot_endpoint (data : HoneypotRequest)
    (cl gen : Except Unit (List Char)) (db : Db) : HoneypotResult :=
  ⟨scamFromClassifier cl,
   agentReplyOf (scamFromClassifier cl) data.turn_count gen,
   extract_intelligence (data.message ++ ' ' ::
     agentReplyOf (scamFromClassifier cl) data.turn_count gen),
   confidenceScore (scamFromClassifier cl)
     (extract_intelligence (data.message ++ ' ' ::
       agentReplyOf (scamFromClassifier cl) data.turn_count gen)),
   scamFromClassifier cl && decide (data.turn_count < 3),
   ⟨conversationsAfter db.conversations data.conversation_id,
    messagesAfter db.messages data.conversation_id data.message
      (agentReplyOf (scamFromClassifier cl) data.turn_count gen)
      (scamFromClassifier cl)
      (confidenceScore (scamFromClassifier cl)
        (extract_intelligence (data.message ++ ' ' ::
          agentReplyOf (scamFromClassifier cl) data.turn_count gen))),
    storeIntelligence db.intelligence data.conversation_id
      (extract_intelligence (data.message ++ ' ' ::
        agentReplyOf (scamFromClassifier cl) data.turn_count gen))⟩⟩

theorem confidenceScore_eq (scam : Bool) (e : ExtractedIndicators) :
    confidenceScore scam e =
      min ((4 / 10 : ℚ) + (if scam then 3 / 10 else 0) +
        (if e.upi_ids = [] then 0 else 2 / 10) +
        (if e.phishing_links = [] then 0 else 1 / 10)) (95 / 100) := by
  unfold confidenceScore
  rcases scam <;> by_cases hu : e.upi_ids = [] <;>
    by_cases hl : e.phishing_links = [] <;> simp [hu, hl]

theorem ite_bonus_le {P Q : Prop} [Decidable P] [Decidable Q]
    (h : P → Q) (x : ℚ) (hx : 0 ≤ x) :
    (if P then x else 0) ≤ (if Q then x else 0) := by
  by_cases hP : P
  · simp [hP, h hP]
  · simp [hP]
    positivity

theorem ite_bonus_le2 {P Q : Prop} [Decidable P] [Decidable Q]
    (h : ¬P → ¬Q) (x : ℚ) (hx : 0 ≤ x) :
    (if P then 0 else x) ≤ (if Q then 0 else x) := by
  by_cases hP : P
  · by_cases hQ : Q
    · simp [hP, hQ]
    · simp [hP, hQ]
      positivity
  · simp [hP, h hP]

/-- Claim C1: for every boolean `scamDetected` and every indicator record,
the confidence score equals the sum of the base 0.4, plus 0.3 when the
scam flag is set, plus 0.2 when the payment-handle set is non-empty, plus
0.1 when the link set is non-empty, clamped at 0.95; and the score does
not depend on the account-number set in any way. -/
theorem C1_confidence_formula :
    ∀ (scam : Bool) (u b b2 lks : List (List Char)),
      confidenceScore scam ⟨u, b, lks⟩ =
        min ((4 / 10 : ℚ) + (if scam then 3 / 10 else 0) +
          (if u ≠ [] then 2 / 10 else 0) + (if lks ≠ [] then 1 / 10 else 0))
          (95 / 100)
      ∧ confidenceScore scam ⟨u, b, lks⟩ = confidenceScore scam ⟨u, b2, lks⟩ := by
  intro scam u b b2 lks
  refine ⟨?_, rfl⟩
  rw [confidenceScore_eq]
  by_cases hu : u = [] <;> by_cases hl : lks = [] <;> simp [hu, hl]

/-- Claim C3: for every boolean `scamDetected` and every indicator record,
the confidence score lies in the closed interval [0.4, 0.95]. -/
theorem C3_score_range :
    ∀ (scam : Bool) (e : ExtractedIndicators),
      4 / 10 ≤ confidenceScore scam e ∧ confidenceScore scam e ≤ 95 / 100 := by
  intro scam e
  rw [confidenceScore_eq]
  refine ⟨le_min ?_ (by norm_num), min_le_right _ _⟩
  split_ifs <;> norm_num

/-- Claim C4: the confidence score is monotonically non-decreasing in the
positive signals (scam flag, non-empty payment-handle set, non-empty link
set), and no accumulation of bonuses yields a score above 0.95. -/
theorem C4_score_monotone :
    ∀ (s1 s2 : Bool) (e1 e2 : ExtractedIndicators),
      (s1 = true → s2 = true) →
      (e1.upi_ids ≠ [] → e2.upi_ids ≠ []) →
      (e1.phishing_links ≠ [] → e2.phishing_links ≠ []) →
      confidenceScore s1 e1 ≤ confidenceScore s2 e2
        ∧ confidenceScore s2 e2 ≤ 95 / 100 := by
  intro s1 s2 e1 e2 hs hu hl
  rw [confidenceScore_eq, confidenceScore_eq]
  refine ⟨min_le_min ?_ le_rfl, min_le_right _ _⟩
  have h3 : (if s1 = true then (3 : ℚ) / 10 else 0) ≤
      (if s2 = true then (3 : ℚ) / 10 else 0) :=
    ite_bonus_le hs (3 / 10) (by norm_num)
  have h2 : (if e1.upi_ids = [] then 0 else (2 : ℚ) / 10) ≤
      (if e2.upi_ids = [] then 0 else (2 : ℚ) / 10) :=
    ite_bonus_le2 hu (2 / 10) (by norm_num)
  have h1 : (if e1.phishing_links = [] then 0 else (1 : ℚ) / 10) ≤
      (if e2.phishing_links = [] then 0 else (1 : ℚ) / 10) :=
    ite_bonus_le2 hl (1 / 10) (by norm_num)
  exact add_le_add (add_le_add (add_le_add le_rfl h3) h2) h1

theorem C4_score_monotone_witness :
    confidenceScore false ⟨[], [], []⟩ ≤
      confidenceScore true ⟨[chars "a@b"], [], [chars "http://x"]⟩
    ∧ confidenceScore true ⟨[chars "a@b"], [], [chars "http://x"]⟩ ≤ 95 / 100 :=
  C4_score_monotone false true ⟨[], [], []⟩
    ⟨[chars "a@b"], [], [chars "http://x"]⟩
    (by decide) (by decide) (by decide)

theorem dropWhileLenLe (p : Char → Bool) (l : List Char) :
    (l.dropWhile p).length ≤ l.length := by
  induction l with
  | nil => simp
  | cons c cs ih =>
    rw [List.dropWhile_cons]
    split
    · exact Nat.le_succ_of_le ih
    · simp

theorem dropWhileHead (p : Char → Bool) (l : List Char) :
    ∀ c, (l.dropWhile p).head? = some c → p c = false := by
  induction l with
  | nil => simp
  | cons a as ih =>
    intro c hc
    by_cases hp : p a = true
    · rw [List.dropWhile_cons_of_pos hp] at hc
      exact ih c hc
    · rw [List.dropWhile_cons_of_neg hp] at hc
      rw [List.head?_cons, Option.some_inj] at hc
      subst hc
      simpa using hp

theorem takeWhileAll (p : Char → Bool) (l : List Char) :
    (l.takeWhile p).all p = true := by
  rw [List.all_eq_true]
  intro x hx
  exact List.mem_takeWhile_imp hx

theorem takeWhileAllAppend (p : Char → Bool) (r post : List Char)
    (hall : r.all p = true)
    (hpost : ∀ c, post.head? = some c → p c = false) :
    (r ++ post).takeWhile p = r ∧ (r ++ post).dropWhile p = post := by
  induction r with
  | nil =>
    simp only [List.nil_append]
    cases post with
    | nil => simp
    | cons d ds =>
      have hd : p d = false := hpost d rfl
      constructor
      · rw [List.takeWhile_cons, hd]
        simp
      · rw [List.dropWhile_cons, hd]
        simp
  | cons a as ih =>
    rw [List.all_cons, Bool.and_eq_true] at hall
    obtain ⟨h1, h2⟩ := ih hall.2
    constructor
    · rw [List.cons_append, List.takeWhile_cons_of_pos hall.1, h1]
    · rw [List.cons_append, List.dropWhile_cons_of_pos hall.1, h2]

theorem takeWhileStopAppend (p : Char → Bool) (pre y : List Char)
    (h : ¬(pre.all p = true)) :
    (pre ++ y).takeWhile p = pre.takeWhile p ∧
      (pre ++ y).dropWhile p = pre.dropWhile p ++ y := by
  induction pre with
  | nil => simp at h
  | cons a as ih =>
    by_cases hpa : p a = true
    · have has : ¬(as.all p = true) := by
        rw [List.all_cons, hpa] at h
        simpa using h
      obtain ⟨h1, h2⟩ := ih has
      constructor
      · rw [List.cons_append, List.takeWhile_cons_of_pos hpa, h1,
          List.takeWhile_cons_of_pos hpa]
      · rw [List.cons_append, List.dropWhile_cons_of_pos hpa, h2,
          List.dropWhile_cons_of_pos hpa]
    · constructor
      · rw [List.cons_append, List.takeWhile_cons, if_neg hpa,
          List.takeWhile_cons, if_neg hpa]
      · rw [List.cons_append, List.dropWhile_cons_of_neg hpa,
          List.dropWhile_cons_of_neg hpa, List.cons_append]

theorem getLastAppendNeNil (xs ys : List Char) (h : ys ≠ []) :
    (xs ++ ys).getLast? = ys.getLast? := by
  rw [List.getLast?_append]
  cases hy : ys.getLast? with
  | some c => simp
  | none => exact absurd (List.getLast?_eq_none_iff.mp hy) h

theorem getLastOfNeNil (l : List Char) (h : l ≠ []) :
    ∃ c, l.getLast? = some c := by
  cases hl : l.getLast? with
  | some c => exact ⟨c, rfl⟩
  | none => exact absurd (List.getLast?_eq_none_iff.mp hl) h

theorem runsByF_sound (p : Char → Bool) :
    ∀ (fuel : Nat) (l r : List Char), r ∈ runsByF p fuel l →
      r ≠ [] ∧ r.all p = true ∧
        ∃ pre post, l = pre ++ r ++ post ∧
          (∀ c, pre.getLast? = some c → p c = false) ∧
          (∀ c, post.head? = some c → p c = false) := by
  intro fuel
  induction fuel with
  | zero =>
    intro l r h
    simp [runsByF] at h
  | succ n ih =>
    intro l r h
    cases l with
    | nil => simp [runsByF] at h
    | cons c cs =>
      simp only [runsByF] at h
      by_cases hpc : p c = true
      · rw [if_pos hpc] at h
        rcases List.mem_cons.mp h with hr | hr
        · subst hr
          refine ⟨?_, takeWhileAll p _, [], (c :: cs).dropWhile p, ?_, ?_, ?_⟩
          · rw [List.takeWhile_cons_of_pos hpc]
            simp
          · rw [List.nil_append, List.takeWhile_append_dropWhile]
          · intro c0 h0
            simp at h0
          · exact dropWhileHead p (c :: cs)
        · obtain ⟨hne, hall, pre, post, hsplit, hpre, hpost⟩ := ih _ r hr
          refine ⟨hne, hall, (c :: cs).takeWhile p ++ pre, post, ?_, ?_, hpost⟩
          · conv_lhs => rw [← List.takeWhile_append_dropWhile p (c :: cs)]
            rw [hsplit]
            simp [List.append_assoc]
          · intro c0 h0
            cases hpre0 : pre with
            | nil =>
              exfalso
              subst hpre0
              cases r with
              | nil => exact hne rfl
              | cons x xs =>
                have hx : p x = true :=
                  List.all_eq_true.mp hall x (List.mem_cons_self x xs)
                have hhead : ((c :: cs).dropWhile p).head? = some x := by
                  rw [hsplit]
                  simp
                have hfalse := dropWhileHead p (c :: cs) x hhead
                rw [hx] at hfalse
                exact Bool.true_eq_false.mp hfalse
            | cons q qs =>
              rw [hpre0] at h0
              rw [getLastAppendNeNil _ _ (by simp)] at h0
              rw [← hpre0] at h0
              exact hpre c0 h0
      · rw [if_neg hpc] at h
        obtain ⟨hne, hall, pre, post, hsplit, hpre, hpost⟩ := ih cs r h
        refine ⟨hne, hall, c :: pre, post, by simp [hsplit], ?_, hpost⟩
        intro c0 h0
        cases pre with
        | nil =>
          simp at h0
          subst h0
          simpa using hpc
        | cons q qs =>
          rw [List.getLast?_cons_cons] at h0
          exact hpre c0 h0

theorem runsBy_sound (p : Char → Bool) (l r : List Char) (h : r ∈ runsBy p l) :
    r ≠ [] ∧ r.all p = true ∧
      ∃ pre post, l = pre ++ r ++ post ∧
        (∀ c, pre.getLast? = some c → p c = false) ∧
        (∀ c, post.head? = some c → p c = false) :=
  runsByF_sound p l.length l r h

theorem memOfGetLast (l : List Char) (c : Char) (h : l.getLast? = some c) :
    c ∈ l := by
  rcases List.eq_nil_or_concat l with rfl | ⟨L, b, rfl⟩
  · simp at h
  · rw [List.concat_eq_append, List.getLast?_concat, Option.some_inj] at h
    subst h
    simp [List.concat_eq_append]

theorem runsByF_complete (p : Char → Bool) :
    ∀ (fuel : Nat) (pre r post : List Char),
      (pre ++ r ++ post).length ≤ fuel →
      r ≠ [] → r.all p = true →
      (∀ c, pre.getLast? = some c → p c = false) →
      (∀ c, post.head? = some c → p c = false) →
      r ∈ runsByF p fuel (pre ++ r ++ post) := by
  intro fuel
  induction fuel with
  | zero =>
    intro pre r post hlen hne _ _ _
    cases r with
    | nil => exact absurd rfl hne
    | cons x xs =>
      simp [List.length_append] at hlen
  | succ n ih =>
    intro pre r post hlen hne hall hpre hpost
    cases pre with
    | nil =>
      cases r with
      | nil => exact absurd rfl hne
      | cons x xs =>
        have hx : p x = true := by
          have h2 := hall
          rw [List.all_cons, Bool.and_eq_true] at h2
          exact h2.1
        obtain ⟨htw, _⟩ := takeWhileAllAppend p (x :: xs) post hall hpost
        simp only [List.nil_append]
        rw [List.cons_append]
        simp only [runsByF]
        rw [if_pos hx, ← List.cons_append, htw]
        exact List.mem_cons_self _ _
    | cons a pre2 =>
      obtain ⟨b, hb⟩ := getLastOfNeNil (a :: pre2) (by simp)
      have hpb : p b = false := hpre b hb
      have hbmem : b ∈ a :: pre2 := memOfGetLast _ b hb
      by_cases hpa : p a = true
      · have hnotall : ¬((a :: pre2).all p = true) := by
          intro hcontra
          have hbt := List.all_eq_true.mp hcontra b hbmem
          rw [hpb] at hbt
          exact Bool.false_ne_true hbt
        obtain ⟨_, hdw⟩ := takeWhileStopAppend p (a :: pre2) (r ++ post) hnotall
        have hdwne : (a :: pre2).dropWhile p ≠ [] := by
          rw [Ne, List.dropWhile_eq_nil_iff]
          intro hforall
          have hbt := hforall b hbmem
          rw [hpb] at hbt
          exact Bool.false_ne_true hbt
        have hdlast : ∀ c, ((a :: pre2).dropWhile p).getLast? = some c → p c = false := by
          intro c h0
          apply hpre c
          conv_lhs => rw [← List.takeWhile_append_dropWhile p (a :: pre2)]
          rw [getLastAppendNeNil _ _ hdwne]
          exact h0
        have hlen2 : ((a :: pre2).dropWhile p ++ r ++ post).length ≤ n := by
          have hsum : ((a :: pre2).takeWhile p).length +
              ((a :: pre2).dropWhile p).length = (a :: pre2).length := by
            conv_rhs => rw [← List.takeWhile_append_dropWhile p (a :: pre2)]
            rw [List.length_append]
          have hlentw : 1 ≤ ((a :: pre2).takeWhile p).length := by
            rw [List.takeWhile_cons_of_pos hpa]
            simp
          simp only [List.length_append, List.length_cons] at hlen hsum ⊢
          omega
        have hrec := ih ((a :: pre2).dropWhile p) r post hlen2 hne hall hdlast hpost
        have hshape : (a :: pre2) ++ r ++ post = a :: (pre2 ++ (r ++ post)) := by
          simp
        rw [hshape]
        simp only [runsByF]
        rw [if_pos hpa]
        apply List.mem_cons_of_mem
        have harg : (a :: (pre2 ++ (r ++ post))).dropWhile p =
            (a :: pre2).dropWhile p ++ (r ++ post) := by
          have h3 := hdw
          rw [List.cons_append] at h3
          exact h3
        rw [harg, ← List.append_assoc]
        exact hrec
      · have hshape : (a :: pre2) ++ r ++ post = a :: (pre2 ++ (r ++ post)) := by
          simp
        rw [hshape]
        simp only [runsByF]
        rw [if_neg hpa]
        have hlen2 : (pre2 ++ r ++ post).length ≤ n := by
          simp only [List.length_append, List.length_cons] at hlen ⊢
          omega
        have hpre2 : ∀ c, pre2.getLast? = some c → p c = false := by
          intro c h0
          apply hpre c
          cases pre2 with
          | nil => simp at h0
          | cons q qs =>
            rw [List.getLast?_cons_cons]
            exact h0
        rw [← List.append_assoc]
        exact ih pre2 r post hlen2 hne hall hpre2 hpost

theorem runsBy_complete (p : Char → Bool) (pre r post : List Char)
    (hne : r ≠ []) (hall : r.all p = true)
    (hpre : ∀ c, pre.getLast? = some c → p c = false)
    (hpost : ∀ c, post.head? = some c → p c = false) :
    r ∈ runsBy p (pre ++ r ++ post) :=
  runsByF_complete p (pre ++ r ++ post).length pre r post le_rfl hne hall hpre hpost

theorem memOfDropWhile (p : Char → Bool) (l : List Char) (x : Char)
    (h : x ∈ l.dropWhile p) : x ∈ l := by
  rw [← List.takeWhile_append_dropWhile p l]
  exact List.mem_append.mpr (Or.inr h)

theorem upiScanF_sound :
    ∀ (fuel : Nat) (l s : List Char), s ∈ upiScanF fuel l →
      ∃ q1 q2, s = q1 ++ '@' :: q2 ∧ q1 ≠ [] ∧ q1.all upiChar = true ∧
        q2 ≠ [] ∧ q2.all alphaChar = true := by
  intro fuel
  induction fuel with
  | zero =>
    intro l s h
    simp [upiScanF] at h
  | succ n ih =>
    intro l s h
    cases l with
    | nil => simp [upiScanF] at h
    | cons c cs =>
      simp only [upiScanF] at h
      by_cases hpc : upiChar c = true
      · rw [if_pos hpc] at h
        cases hdw : (c :: cs).dropWhile upiChar with
        | nil =>
          rw [hdw] at h
          simp at h
        | cons d rest2 =>
          rw [hdw] at h
          simp only [] at h
          by_cases hd : d = '@'
          · rw [if_pos hd] at h
            cases hta : rest2.takeWhile alphaChar with
            | nil =>
              rw [hta] at h
              simp only [] at h
              exact ih rest2 s h
            | cons a al =>
              rw [hta] at h
              simp only [] at h
              rcases List.mem_cons.mp h with hs | hs
              · subst hs
                subst hd
                refine ⟨(c :: cs).takeWhile upiChar, a :: al, rfl, ?_,
                  takeWhileAll upiChar (c :: cs), by simp, ?_⟩
                · rw [List.takeWhile_cons_of_pos hpc]
                  simp
                · rw [← hta]
                  exact takeWhileAll alphaChar rest2
              · exact ih _ s hs
          · rw [if_neg hd] at h
            exact ih rest2 s h
      · rw [if_neg hpc] at h
        exact ih cs s h

theorem upiScan_sound (l s : List Char) (h : s ∈ upiScan l) :
    ∃ q1 q2, s = q1 ++ '@' :: q2 ∧ q1 ≠ [] ∧ q1.all upiChar = true ∧
      q2 ≠ [] ∧ q2.all alphaChar = true :=
  upiScanF_sound l.length l s h

theorem upiScanF_no_at :
    ∀ (fuel : Nat) (l : List Char), '@' ∉ l → upiScanF fuel l = [] := by
  intro fuel
  induction fuel with
  | zero =>
    intro l _
    simp [upiScanF]
  | succ n ih =>
    intro l hat
    cases l with
    | nil => simp [upiScanF]
    | cons c cs =>
      simp only [upiScanF]
      by_cases hpc : upiChar c = true
      · rw [if_pos hpc]
        cases hdw : (c :: cs).dropWhile upiChar with
        | nil => simp
        | cons d rest2 =>
          simp only []
          have hdmem : d ∈ c :: cs := by
            apply memOfDropWhile upiChar (c :: cs) d
            rw [hdw]
            exact List.mem_cons_self d rest2
          have hrest2 : ∀ x, x ∈ rest2 → x ∈ c :: cs := by
            intro x hx
            apply memOfDropWhile upiChar (c :: cs) x
            rw [hdw]
            exact List.mem_cons_of_mem d hx
          have hd : ¬ d = '@' := fun he => hat (he ▸ hdmem)
          rw [if_neg hd]
          exact ih rest2 fun hmem => hat (hrest2 '@' hmem)
      · rw [if_neg hpc]
        exact ih cs fun hmem => hat (List.mem_cons_of_mem c hmem)

theorem linkHead_none (l : List Char)
    (h1 : leadsWith httpsPat l = false) (h2 : leadsWith httpPat l = false) :
    linkHead l = none := by
  simp [linkHead, h1, h2]

theorem leadsWithNil (pat : List Char) (hne : pat ≠ []) :
    leadsWith pat [] = false := by
  cases pat with
  | nil => exact absurd rfl hne
  | cons a as => rfl

theorem containsSeqAll (pat text : List Char) (hne : pat ≠ [])
    (h : containsSeq pat text = false) :
    ∀ i, leadsWith pat (text.drop i) = false := by
  intro i
  unfold containsSeq at h
  rw [List.any_eq_false] at h
  by_cases hi : i ≤ text.length
  · have hmem := h i (List.mem_range.mpr (by omega))
    cases hb : leadsWith pat (text.drop i)
    · rfl
    · exact absurd hb hmem
  · rw [List.drop_eq_nil_of_le (by omega)]
    exact leadsWithNil pat hne

theorem linkScanF_none :
    ∀ (fuel : Nat) (l : List Char),
      (∀ i, leadsWith httpsPat (l.drop i) = false) →
      (∀ i, leadsWith httpPat (l.drop i) = false) →
      linkScanF fuel l = [] := by
  intro fuel
  induction fuel with
  | zero =>
    intro l _ _
    simp [linkScanF]
  | succ n ih =>
    intro l hs hp
    cases l with
    | nil => simp [linkScanF]
    | cons c cs =>
      simp only [linkScanF]
      have h0 : linkHead (c :: cs) = none :=
        linkHead_none _ (by simpa using hs 0) (by simpa using hp 0)
      rw [h0]
      exact ih cs (fun i => by have := hs (i + 1); rwa [List.drop_succ_cons] at this)
        (fun i => by have := hp (i + 1); rwa [List.drop_succ_cons] at this)

theorem digitIsWord (c : Char) (h : digitChar c = true) : isWordChar c = true := by
  simp [isWordChar, h]

theorem wordFalseDigitFalse (c : Char) (h : isWordChar c = false) :
    digitChar c = false := by
  cases hd : digitChar c
  · rfl
  · rw [digitIsWord c hd] at h
    exact absurd h (by simp)

theorem runsByDigitOfWord (l r : List Char)
    (hw : r ∈ runsBy isWordChar l) (hd : r.all digitChar = true) :
    r ∈ runsBy digitChar l := by
  obtain ⟨hne, _, pre, post, hsplit, hpre, hpost⟩ := runsBy_sound isWordChar l r hw
  subst hsplit
  exact runsBy_complete digitChar pre r post hne hd
    (fun c h0 => wordFalseDigitFalse c (hpre c h0))
    (fun c h0 => wordFalseDigitFalse c (hpost c h0))

/-- Claim C2 counterexample: the text `a@b` yields the payment handle
`a@b`, whose part before the `@` has length 1, so the minimum-length-2
requirement stated by the specification does not hold of the code. -/
theorem C2_counterexample :
    chars "a@b" ∈ (extract_intelligence (chars "a@b")).upi_ids ∧
      ¬∃ q1 q2, chars "a@b" = q1 ++ '@' :: q2 ∧ 2 ≤ q1.length ∧
        q1.all upiChar = true ∧ 2 ≤ q2.length ∧ q2.all alphaChar = true := by
  constructor
  · decide
  · rintro ⟨q1, q2, heq, h1, _, h2, _⟩
    have hlen3 : (chars "a@b").length = 3 := rfl
    have hlen := congrArg List.length heq
    rw [hlen3] at hlen
    simp [List.length_append] at hlen
    omega

/-- Claim C2 (amended): every string in the payment-handle set returned
by `extract_intelligence` consists of a sequence of letters, digits,
`.`, `-` or `_` of length at least 1, followed by `@`, followed by a
sequence of letters of length at least 1; in particular an `@` with
nothing before it never produces a match. -/
theorem C2_upi_shape :
    ∀ (text s : List Char), s ∈ (extract_intelligence text).upi_ids →
      ∃ q1 q2, s = q1 ++ '@' :: q2 ∧ 1 ≤ q1.length ∧ q1.all upiChar = true ∧
        1 ≤ q2.length ∧ q2.all alphaChar = true := by
  intro text s hs
  simp only [extract_intelligence] at hs
  rw [List.mem_dedup] at hs
  obtain ⟨q1, q2, heq, hne1, hall1, hne2, hall2⟩ := upiScan_sound text s hs
  exact ⟨q1, q2, heq, List.length_pos.mpr hne1, hall1,
    List.length_pos.mpr hne2, hall2⟩

theorem C2_upi_shape_witness :
    ∃ q1 q2, chars "john.doe@paytm" = q1 ++ '@' :: q2 ∧ 1 ≤ q1.length ∧
      q1.all upiChar = true ∧ 1 ≤ q2.length ∧ q2.all alphaChar = true :=
  C2_upi_shape (chars "john.doe@paytm") (chars "john.doe@paytm") (by decide)

/-- Claim C5: every string in the account-number set is a standalone,
word-bounded run of 9 to 18 decimal digits of the input text, and a
standalone run of 20 digits yields no account-number match. -/
theorem C5_account_shape :
    (∀ (text s : List Char), s ∈ (extract_intelligence text).bank_accounts →
      s.all digitChar = true ∧ 9 ≤ s.length ∧ s.length ≤ 18 ∧
        ∃ pre post, text = pre ++ s ++ post ∧
          (∀ c, pre.getLast? = some c → isWordChar c = false) ∧
          (∀ c, post.head? = some c → isWordChar c = false))
    ∧ (extract_intelligence (List.replicate 20 '7')).bank_accounts = [] := by
  constructor
  · intro text s hs
    simp only [extract_intelligence] at hs
    rw [List.mem_dedup, List.mem_filter] at hs
    obtain ⟨hmem, hpred⟩ := hs
    rw [Bool.and_eq_true, Bool.and_eq_true] at hpred
    obtain ⟨⟨hall, hge⟩, hle⟩ := hpred
    obtain ⟨hne, _, pre, post, hsplit, hpre, hpost⟩ :=
      runsBy_sound isWordChar text s hmem
    exact ⟨hall, of_decide_eq_true hge, of_decide_eq_true hle,
      pre, post, hsplit, hpre, hpost⟩
  · decide

theorem C5_account_shape_witness :
    (chars "123456789").all digitChar = true ∧ 9 ≤ (chars "123456789").length ∧
      (chars "123456789").length ≤ 18 ∧
      ∃ pre post, chars "pay 123456789 now" = pre ++ chars "123456789" ++ post ∧
        (∀ c, pre.getLast? = some c → isWordChar c = false) ∧
        (∀ c, post.head? = some c → isWordChar c = false) :=
  C5_account_shape.1 (chars "pay 123456789 now") (chars "123456789") (by decide)

/-- Claim C6: on a text with no `@`, no digit run of length 9 to 18 and
no `http://` or `https://` occurrence, extraction returns a record whose
three category lists are all empty (each present by construction of
`ExtractedIndicators`; `extract_intelligence` is a total function, so no
input can make it raise). -/
theorem C6_no_indicators :
    ∀ (text : List Char),
      '@' ∉ text →
      (∀ r ∈ runsBy digitChar text, ¬(9 ≤ r.length ∧ r.length ≤ 18)) →
      containsSeq httpPat text = false →
      containsSeq httpsPat text = false →
      (extract_intelligence text).upi_ids = [] ∧
        (extract_intelligence text).bank_accounts = [] ∧
        (extract_intelligence text).phishing_links = [] := by
  intro text hat hdig hhttp hhttps
  refine ⟨?_, ?_, ?_⟩
  · simp only [extract_intelligence]
    rw [List.dedup_eq_nil]
    exact upiScanF_no_at text.length text hat
  · simp only [extract_intelligence]
    rw [List.dedup_eq_nil, List.filter_eq_nil_iff]
    intro r hr hpred
    rw [Bool.and_eq_true, Bool.and_eq_true] at hpred
    obtain ⟨⟨hall, hge⟩, hle⟩ := hpred
    exact hdig r (runsByDigitOfWord text r hr hall)
      ⟨of_decide_eq_true hge, of_decide_eq_true hle⟩
  · simp only [extract_intelligence]
    rw [List.dedup_eq_nil]
    exact linkScanF_none text.length text
      (containsSeqAll httpsPat text (by simp [httpsPat]) hhttps)
      (containsSeqAll httpPat text (by simp [httpPat]) hhttp)

theorem C6_no_indicators_witness :
    (extract_intelligence (chars "no indicators here")).upi_ids = [] ∧
      (extract_intelligence (chars "no indicators here")).bank_accounts = [] ∧
      (extract_intelligence (chars "no indicators here")).phishing_links = [] :=
  C6_no_indicators (chars "no indicators here") (by decide) (by decide)
    (by decide) (by decide)

theorem intelCountZeroOfAnyFalse (st : List IntelRecord) (cid ty v : List Char)
    (h : st.any (intelTriple cid ty v) = false) :
    intelCount st cid ty v = 0 := by
  unfold intelCount
  rw [List.any_eq_false] at h
  rw [List.length_eq_zero, List.filter_eq_nil_iff]
  exact h

theorem intelCountPosOfAnyTrue (st : List IntelRecord) (cid ty v : List Char)
    (h : st.any (intelTriple cid ty v) = true) :
    1 ≤ intelCount st cid ty v := by
  unfold intelCount
  rw [List.any_eq_true] at h
  obtain ⟨x, hx, hp⟩ := h
  have hmem : x ∈ st.filter (intelTriple cid ty v) := List.mem_filter.mpr ⟨hx, hp⟩
  exact List.length_pos.mpr (List.ne_nil_of_mem hmem)

theorem intelCount_append (st1 st2 : List IntelRecord) (cid ty v : List Char) :
    intelCount (st1 ++ st2) cid ty v =
      intelCount st1 cid ty v + intelCount st2 cid ty v := by
  unfold intelCount
  rw [List.filter_append, List.length_append]

theorem upsert_count_le (st : List IntelRecord) (cid ty v c t v2 : List Char)
    (hinv : intelCount st c t v2 ≤ 1) :
    intelCount (upsertIntelligence st cid ty v) c t v2 ≤ 1 := by
  unfold upsertIntelligence
  by_cases hany : st.any (intelTriple cid ty v) = true
  · rw [if_pos hany]
    exact hinv
  · rw [if_neg hany]
    rw [intelCount_append]
    by_cases hmatch : intelTriple c t v2 ⟨cid, ty, v⟩ = true
    · have htrip := of_decide_eq_true hmatch
      obtain ⟨h1, h2, h3⟩ := htrip
      have h0 : intelCount st c t v2 = 0 := by
        apply intelCountZeroOfAnyFalse
        rw [← h1, ← h2, ← h3]
        exact Bool.eq_false_iff.mpr hany
      have hsing : intelCount [(⟨cid, ty, v⟩ : IntelRecord)] c t v2 ≤ 1 :=
        le_trans (List.length_filter_le _ _) (by simp)
      omega
    · have h0 : intelCount [(⟨cid, ty, v⟩ : IntelRecord)] c t v2 = 0 := by
        unfold intelCount
        rw [List.length_eq_zero, List.filter_eq_nil_iff]
        intro a ha
        rw [List.mem_singleton] at ha
        subst ha
        exact hmatch
      omega

theorem upsert_inv (st : List IntelRecord) (cid ty v : List Char)
    (h : intelDedupInv st) : intelDedupInv (upsertIntelligence st cid ty v) :=
  fun c t v2 => upsert_count_le st cid ty v c t v2 (h c t v2)

theorem foldl_upsert_inv (cid ty : List Char) :
    ∀ (vs : List (List Char)) (st : List IntelRecord), intelDedupInv st →
      intelDedupInv (vs.foldl (fun s v => upsertIntelligence s cid ty v) st) := by
  intro vs
  induction vs with
  | nil => exact fun st h => h
  | cons x xs ih => exact fun st h => ih _ (upsert_inv st cid ty x h)

theorem storeIntelligence_inv (st : List IntelRecord) (cid : List Char)
    (e : ExtractedIndicators) (h : intelDedupInv st) :
    intelDedupInv (storeIntelligence st cid e) := by
  unfold storeIntelligence
  exact foldl_upsert_inv cid linkTag _ _
    (foldl_upsert_inv cid bankTag _ _ (foldl_upsert_inv cid upiTag _ _ h))

theorem endpoint_inv (data : HoneypotRequest) (cl gen : Except Unit (List Char))
    (db : Db) (h : intelDedupInv db.intelligence) :
    intelDedupInv (honeypot_endpoint data cl gen db).db.intelligence :=
  storeIntelligence_inv db.intelligence data.conversation_id _ h

theorem upsert_twice_count (st : List IntelRecord) (cid ty v : List Char)
    (h : intelDedupInv st) :
    intelCount (upsertIntelligence (upsertIntelligence st cid ty v) cid ty v)
      cid ty v = 1 := by
  unfold upsertIntelligence
  by_cases hany : st.any (intelTriple cid ty v) = true
  · rw [if_pos hany, if_pos hany]
    have h1 := intelCountPosOfAnyTrue st cid ty v hany
    have h2 := h cid ty v
    omega
  · rw [if_neg hany]
    have hany2 : (st ++ [(⟨cid, ty, v⟩ : IntelRecord)]).any
        (intelTriple cid ty v) = true := by
      rw [List.any_eq_true]
      refine ⟨⟨cid, ty, v⟩, List.mem_append.mpr (Or.inr (List.mem_singleton.mpr rfl)), ?_⟩
      simp [intelTriple]
    rw [if_pos hany2, intelCount_append,
      intelCountZeroOfAnyFalse st cid ty v (Bool.eq_false_iff.mpr hany)]
    unfold intelCount
    simp [intelTriple]

/-- Claim C7: after any sequence of requests starting from an empty
store, the intelligence table holds at most one row per
(conversation, type, value) triple; and upserting the same triple twice
into a store satisfying that invariant leaves exactly one matching row. -/
theorem C7_intel_dedup :
    (∀ (steps : List (HoneypotRequest × Except Unit (List Char) × Except Unit (List Char))),
      intelDedupInv
        (steps.foldl (fun d s => (honeypot_endpoint s.1 s.2.1 s.2.2 d).db) emptyDb).intelligence)
    ∧ ∀ (st : List IntelRecord) (cid ty v : List Char), intelDedupInv st →
        intelCount (upsertIntelligence (upsertIntelligence st cid ty v) cid ty v)
          cid ty v = 1 := by
  constructor
  · have hstep : ∀ (steps : List (HoneypotRequest × Except Unit (List Char) × Except Unit (List Char)))
        (db : Db), intelDedupInv db.intelligence →
        intelDedupInv
          ((steps.foldl (fun d s => (honeypot_endpoint s.1 s.2.1 s.2.2 d).db) db).intelligence) := by
      intro steps
      induction steps with
      | nil => exact fun db h => h
      | cons s ss ih => exact fun db h => ih _ (endpoint_inv s.1 s.2.1 s.2.2 db h)
    intro steps
    exact hstep steps emptyDb fun c t v => by simp [intelCount, emptyDb]
  · exact upsert_twice_count

theorem C7_intel_dedup_witness :
    intelCount
      (upsertIntelligence (upsertIntelligence [] (chars "c1") upiTag (chars "x@y"))
        (chars "c1") upiTag (chars "x@y"))
      (chars "c1") upiTag (chars "x@y") = 1 :=
  C7_intel_dedup.2 [] (chars "c1") upiTag (chars "x@y")
    (fun c t v => by simp [intelCount])

/-- Claim C8: the decoy-reply generator is invoked exactly when the
classifier flagged a scam and `turn_count` is below the budget of 3; in
every other state no generation call is made and the agent reply is
empty. -/
theorem C8_generator_gating :
    ∀ (data : HoneypotRequest) (cl gen : Except Unit (List Char)) (db : Db),
      (honeypot_endpoint data cl gen db).generatorCalled =
        ((honeypot_endpoint data cl gen db).scam_detected &&
          decide (data.turn_count < 3))
      ∧ (¬((honeypot_endpoint data cl gen db).scam_detected = true ∧
            data.turn_count < 3) →
          (honeypot_endpoint data cl gen db).generatorCalled = false ∧
            (honeypot_endpoint data cl gen db).agent_reply = []) := by
  intro data cl gen db
  refine ⟨rfl, fun hnot => ?_⟩
  have hfalse : (scamFromClassifier cl && decide (data.turn_count < 3)) = false := by
    cases hsc : scamFromClassifier cl
    · simp
    · cases htc : decide (data.turn_count < 3)
      · simp
      · exact absurd ⟨hsc, of_decide_eq_true htc⟩ hnot
  constructor
  · show (scamFromClassifier cl && decide (data.turn_count < 3)) = false
    exact hfalse
  · show agentReplyOf (scamFromClassifier cl) data.turn_count gen = []
    simp only [agentReplyOf, hfalse]
    rfl

theorem C8_generator_gating_witness :
    (honeypot_endpoint ⟨chars "c1", chars "urgent pay now", 3⟩
        (Except.ok (chars "YES")) (Except.ok (chars "hello")) emptyDb).generatorCalled
        = false
    ∧ (honeypot_endpoint ⟨chars "c1", chars "urgent pay now", 3⟩
        (Except.ok (chars "YES")) (Except.ok (chars "hello")) emptyDb).agent_reply
        = [] :=
  (C8_generator_gating ⟨chars "c1", chars "urgent pay now", 3⟩
    (Except.ok (chars "YES")) (Except.ok (chars "hello")) emptyDb).2 (by decide)

/-- Claim C9: the handler degrades instead of failing.  A classifier
reply whose stripped, upper-cased content is not the literal `YES`
behaves exactly like a raised classifier exception; a raised classifier
exception yields `scam_detected = false`; a raised generator exception
yields an empty agent reply and behaves exactly like an empty generator
reply — extraction, scoring and persistence still run in each case. -/
theorem C9_graceful_degradation :
    ∀ (data : HoneypotRequest) (db : Db) (gen cl : Except Unit (List Char))
      (content : List Char),
      pyUpper (pyStrip content) ≠ chars "YES" →
      (honeypot_endpoint data (Except.ok content) gen db =
          honeypot_endpoint data (Except.error ()) gen db
        ∧ (honeypot_endpoint data (Except.error ()) gen db).scam_detected = false
        ∧ (honeypot_endpoint data cl (Except.error ()) db).agent_reply = []
        ∧ honeypot_endpoint data cl (Except.error ()) db =
            honeypot_endpoint data cl (Except.ok []) db) := by
  intro data db gen cl content hmal
  have hsc : scamFromClassifier (Except.ok content) = false := by
    unfold scamFromClassifier
    exact beq_eq_false_iff_ne.mpr hmal
  refine ⟨?_, rfl, ?_, ?_⟩
  · unfold honeypot_endpoint
    rw [hsc]
    rfl
  · show agentReplyOf (scamFromClassifier cl) data.turn_count (Except.error ()) = []
    unfold agentReplyOf
    split <;> rfl
  · have hrep : agentReplyOf (scamFromClassifier cl) data.turn_count (Except.error ()) =
        agentReplyOf (scamFromClassifier cl) data.turn_count (Except.ok []) := by
      unfold agentReplyOf
      split <;> rfl
    unfold honeypot_endpoint
    rw [hrep]

theorem C9_graceful_degradation_witness :
    honeypot_endpoint ⟨chars "c1", chars "hello", 0⟩
        (Except.ok (chars "MAYBE")) (Except.ok (chars "ok")) emptyDb =
      honeypot_endpoint ⟨chars "c1", chars "hello", 0⟩
        (Except.error ()) (Except.ok (chars "ok")) emptyDb
    ∧ (honeypot_endpoint ⟨chars "c1", chars "hello", 0⟩
        (Except.error ()) (Except.ok (chars "ok")) emptyDb).scam_detected = false
    ∧ (honeypot_endpoint ⟨chars "c1", chars "hello", 0⟩
        (Except.ok (chars "YES")) (Except.error ()) emptyDb).agent_reply = []
    ∧ honeypot_endpoint ⟨chars "c1", chars "hello", 0⟩
        (Except.ok (chars "YES")) (Except.error ()) emptyDb =
      honeypot_endpoint ⟨chars "c1", chars "hello", 0⟩
        (Except.ok (chars "YES")) (Except.ok []) emptyDb :=
  C9_graceful_degradation ⟨chars "c1", chars "hello", 0⟩ emptyDb
    (Except.ok (chars "ok")) (Except.ok (chars "YES")) (chars "MAYBE") (by decide)

theorem scoreTrueUpiOnly (e : ExtractedIndicators) (hu : e.upi_ids ≠ [])
    (hl : e.phishing_links = []) : confidenceScore true e = 9 / 10 := by
  rw [confidenceScore_eq]
  simp only [hu, hl, if_true, if_false, ite_true, ite_false, if_neg hu]
  norm_num [min_def]

theorem scoreTrueNoIndicators (e : ExtractedIndicators) (hu : e.upi_ids = [])
    (hl : e.phishing_links = []) : confidenceScore true e = 7 / 10 := by
  rw [confidenceScore_eq]
  simp only [hu, hl, ite_true, ite_false]
  norm_num [min_def]

/-- Claim C10: extraction always runs on the scammer message, one space
and the agent reply concatenated; concretely, a payment handle occurring
only in the generated decoy reply is extracted, persisted for the
conversation, and raises the confidence score from 0.7 to 0.9. -/
theorem C10_extraction_over_reply :
    (∀ (data : HoneypotRequest) (cl gen : Except Unit (List Char)) (db : Db),
      (honeypot_endpoint data cl gen db).extracted_intelligence =
        extract_intelligence
          (data.message ++ ' ' :: (honeypot_endpoint data cl gen db).agent_reply))
    ∧ (honeypot_endpoint ⟨chars "c1", chars "please help", 0⟩
        (Except.ok (chars "YES")) (Except.ok (chars "send to scammer@upi"))
        emptyDb).agent_reply = chars "send to scammer@upi"
    ∧ chars "scammer@upi" ∈
        (honeypot_endpoint ⟨chars "c1", chars "please help", 0⟩
          (Except.ok (chars "YES")) (Except.ok (chars "send to scammer@upi"))
          emptyDb).extracted_intelligence.upi_ids
    ∧ (⟨chars "c1", upiTag, chars "scammer@upi"⟩ : IntelRecord) ∈
        (honeypot_endpoint ⟨chars "c1", chars "please help", 0⟩
          (Except.ok (chars "YES")) (Except.ok (chars "send to scammer@upi"))
          emptyDb).db.intelligence
    ∧ (honeypot_endpoint ⟨chars "c1", chars "please help", 0⟩
        (Except.ok (chars "YES")) (Except.ok (chars "send to scammer@upi"))
        emptyDb).confidence_score = 9 / 10
    ∧ (honeypot_endpoint ⟨chars "c1", chars "please help", 0⟩
        (Except.ok (chars "YES")) (Except.ok []) emptyDb).confidence_score
        = 7 / 10 := by
  refine ⟨fun data cl gen db => rfl, by decide, by decide, by decide, ?_, ?_⟩
  · have h1 : (honeypot_endpoint ⟨chars "c1", chars "please help", 0⟩
        (Except.ok (chars "YES")) (Except.ok (chars "send to scammer@upi"))
        emptyDb).confidence_score =
        confidenceScore (scamFromClassifier (Except.ok (chars "YES")))
          ((honeypot_endpoint ⟨chars "c1", chars "please help", 0⟩
            (Except.ok (chars "YES")) (Except.ok (chars "send to scammer@upi"))
            emptyDb).extracted_intelligence) := rfl
    have h2 : scamFromClassifier (Except.ok (chars "YES")) = true := by decide
    rw [h1, h2]
    exact scoreTrueUpiOnly _ (by decide) (by decide)
  · have h1 : (honeypot_endpoint ⟨chars "c1", chars "please help", 0⟩
        (Except.ok (chars "YES")) (Except.ok []) emptyDb).confidence_score =
        confidenceScore (scamFromClassifier (Except.ok (chars "YES")))
          ((honeypot_endpoint ⟨chars "c1", chars "please help", 0⟩
            (Except.ok (chars "YES")) (Except.ok []) emptyDb).extracted_intelligence) := rfl
    have h2 : scamFromClassifier (Except.ok (chars "YES")) = true := by decide
    rw [h1, h2]
    exact scoreTrueNoIndicators _ (by decide) (by decide)
